import Mathlib

set_option linter.unusedSectionVars false

/-!
Verification of the S3-FIFO cache eviction policy (`src/lib.rs`).

The Rust type `S3Fifo<K, V>` holds three `VecDeque`s: `small` and `main`
hold `Entry { key, value, freq: AtomicU8 }`, `ghost` holds bare keys.
We model a deque as a `List` whose head is the front of the deque, so
`push_front` is `List.cons`, `pop_back` reads `List.getLast?` and keeps
`List.dropLast`.  The `AtomicU8` frequency counter is modelled as a `Nat`
with the `u8` wrap written out as `% 256` where the code performs u8
addition (`fetch_add`); the code's only decrement is guarded by `0 < freq`,
so it never wraps below zero.  All operations are single-threaded here,
matching the `&mut self` / externally-synchronised contract of the source.
-/

/-- An entry of the small or main queue: `Entry<K, V>` from the source,
with the `AtomicU8` frequency counter modelled as a `Nat`. -/
structure Entry (K : Type) (V : Type) where
  key : K
  value : V
  freq : Nat
deriving DecidableEq, Repr

/-- The cache state: `S3Fifo<K, V>` from the source.  Lists have the
deque front at the head. -/
structure S3Fifo (K : Type) (V : Type) where
  small : List (Entry K V)
  main : List (Entry K V)
  ghost : List K
  small_size : Nat
  main_size : Nat
deriving DecidableEq, Repr

/-- One external operation on the cache. -/
inductive Op (K : Type) (V : Type) where
  | insert (key : K) (value : V)
  | read (key : K)
deriving DecidableEq, Repr

variable {K V : Type} [DecidableEq K]

/-- `S3Fifo::new(small, main)`: all three queues start empty; the ghost
queue's capacity is the main capacity. -/
def S3Fifo.new (small main : Nat) : S3Fifo K V :=
  { small := [], main := [], ghost := [], small_size := small, main_size := main }

/-- Total frequency mass of a queue; the termination measure of
`evict_main`'s loop. -/
def freqSum (l : List (Entry K V)) : Nat := (l.map (fun e => e.freq)).sum

/-- The loop body of `S3Fifo::evict_main`, written on the reversed queue
(so the deque's back is the list head): pop the back; a positive-frequency
entry is decremented and pushed to the front (the end of the reversed
list); the first zero-frequency entry is discarded and the loop stops.
Termination: each rotation strictly decreases `freqSum`. -/
def evictMainAux : List (Entry K V) → List (Entry K V)
  | [] => []
  | t :: rest =>
    if h : 0 < t.freq then evictMainAux (rest ++ [⟨t.key, t.value, t.freq - 1⟩])
    else rest
termination_by l => freqSum l
decreasing_by
  simp only [freqSum, List.map_append, List.sum_append, List.map_cons, List.sum_cons,
    List.map_nil, List.sum_nil]
  omega

/-- `evict_main`'s effect on the front-at-head representation of `main`. -/
def evictMainL (l : List (Entry K V)) : List (Entry K V) :=
  (evictMainAux l.reverse).reverse

/-- `S3Fifo::evict_main`: only the `main` queue is touched. -/
def S3Fifo.evict_main (s : S3Fifo K V) : S3Fifo K V :=
  { s with main := evictMainL s.main }

/-- The same loop with an explicit iteration budget: `none` means the
budget ran out.  Used to state that the source loop terminates within
`freqSum main + 1` iterations. -/
def evictMainAuxFuel : Nat → List (Entry K V) → Option (List (Entry K V))
  | 0, _ => none
  | _ + 1, [] => some []
  | fuel + 1, t :: rest =>
    if 0 < t.freq then evictMainAuxFuel fuel (rest ++ [⟨t.key, t.value, t.freq - 1⟩])
    else some rest

/-- `S3Fifo::evict_small`: pop the back of `small`; promote it to the
front of `main` when `freq > 1` (evicting from `main` first when
`main.len() >= main_size`), otherwise push its bare key onto the front of
`ghost` (dropping `ghost`'s back first when `ghost.len() >= main_size`). -/
def S3Fifo.evict_small (s : S3Fifo K V) : S3Fifo K V :=
  match s.small.getLast? with
  | none => s
  | some tail =>
    let s := { s with small := s.small.dropLast }
    if 1 < tail.freq then
      let s := if s.main_size ≤ s.main.length then s.evict_main else s
      { s with main := tail :: s.main }
    else
      let s := if s.main_size ≤ s.ghost.length then { s with ghost := s.ghost.dropLast } else s
      { s with ghost := tail.key :: s.ghost }

/-- `S3Fifo::insert`: a key found in `ghost` goes to the front of `main`
(evicting from `main` first when full); otherwise the entry goes to the
front of `small` (evicting from `small` first when full).  The new entry
starts with `freq = 0`; `ghost` is not modified on the ghost-hit path. -/
def S3Fifo.insert (s : S3Fifo K V) (key : K) (value : V) : S3Fifo K V :=
  if key ∈ s.ghost then
    let s := if s.main_size ≤ s.main.length then s.evict_main else s
    { s with main := ⟨key, value, 0⟩ :: s.main }
  else
    let s := if s.small_size ≤ s.small.length then s.evict_small else s
    { s with small := ⟨key, value, 0⟩ :: s.small }

/-- The frequency stored after a hit in `S3Fifo::read`: `fetch_add(1)`
wraps at 256 (u8), and any result above `MAX_FREQ = 3` is clamped back
to 3. -/
def readBump (f : Nat) : Nat :=
  if 3 < (f + 1) % 256 then 3 else (f + 1) % 256

/-- Scan a queue front-to-back for the first entry with the given key and
bump its counter; `none` when no entry matches.  This is the effect of
`find` plus the counter update in `S3Fifo::read` on one queue. -/
def bumpFirst : List (Entry K V) → K → Option (List (Entry K V) × V)
  | [], _ => none
  | e :: rest, k =>
    if e.key = k then some (⟨e.key, e.value, readBump e.freq⟩ :: rest, e.value)
    else
      match bumpFirst rest k with
      | some (rest', v) => some (e :: rest', v)
      | none => none

/-- `S3Fifo::read`: scan `small` then `main`; on a hit return the value
and bump only the found entry's counter (interior mutability of the
atomic is modelled by returning the updated state); on a miss return
`none` and leave the state unchanged. -/
def S3Fifo.read (s : S3Fifo K V) (k : K) : Option V × S3Fifo K V :=
  match bumpFirst s.small k with
  | some (small', v) => (some v, { s with small := small' })
  | none =>
    match bumpFirst s.main k with
    | some (main', v) => (some v, { s with main := main' })
    | none => (none, s)

/-- Apply one operation to the state. -/
def S3Fifo.step (s : S3Fifo K V) : Op K V → S3Fifo K V
  | .insert k v => s.insert k v
  | .read k => (s.read k).2

/-- Run a sequence of operations from a state. -/
def S3Fifo.run (s : S3Fifo K V) (ops : List (Op K V)) : S3Fifo K V :=
  ops.foldl S3Fifo.step s

/-- `true` when every `insert` in the sequence is of a key that has no
live entry in `small` or `main` at the moment of the insert (the
cache-fill discipline: insert only on miss). -/
def freshRun (s : S3Fifo K V) : List (Op K V) → Bool
  | [] => true
  | Op.insert k v :: rest =>
      decide (∀ e ∈ s.small ++ s.main, e.key ≠ k) && freshRun (s.insert k v) rest
  | Op.read k :: rest => freshRun ((s.read k).2) rest

/-- The keys of the live (value-bearing) entries, small queue first. -/
def liveKeys (s : S3Fifo K V) : List K :=
  (s.small ++ s.main).map (fun e => e.key)

/-- The capacity invariant of the three queues. -/
def SizeInv (s : S3Fifo K V) : Prop :=
  s.small.length ≤ s.small_size ∧ s.main.length ≤ s.main_size ∧
    s.ghost.length ≤ s.main_size

/-- Every live entry's frequency counter is clamped to at most 3. -/
def FreqInv (s : S3Fifo K V) : Prop :=
  ∀ e ∈ s.small ++ s.main, e.freq ≤ 3

/-- No key occurs twice among the live entries of small and main. -/
def KeysNodup (s : S3Fifo K V) : Prop :=
  (liveKeys s).Nodup

/-! ## Lemmas -/

@[simp]
theorem freqSum_nil : freqSum ([] : List (Entry K V)) = 0 := rfl

@[simp]
theorem freqSum_cons (e : Entry K V) (l : List (Entry K V)) :
    freqSum (e :: l) = e.freq + freqSum l := by
  simp [freqSum]

@[simp]
theorem freqSum_append (a b : List (Entry K V)) :
    freqSum (a ++ b) = freqSum a + freqSum b := by
  simp [freqSum]

theorem freqSum_reverse (l : List (Entry K V)) : freqSum l.reverse = freqSum l := by
  simp [freqSum, List.map_reverse, List.sum_reverse]

/-! ## The main-eviction loop -/

theorem evictMainAux_nil : evictMainAux ([] : List (Entry K V)) = [] := by
  rw [evictMainAux]

theorem evictMainAux_length (l : List (Entry K V)) (h : l ≠ []) :
    (evictMainAux l).length + 1 = l.length := by
  induction l using evictMainAux.induct with
  | case1 => exact absurd rfl h
  | case2 t rest ht ih =>
    rw [evictMainAux]
    simp only [ht, dif_pos]
    have := ih (by simp)
    simpa using this
  | case3 t rest ht =>
    rw [evictMainAux]
    simp [ht]

theorem evictMainAux_freq_le (l : List (Entry K V)) (h : ∀ e ∈ l, e.freq ≤ 3) :
    ∀ e ∈ evictMainAux l, e.freq ≤ 3 := by
  induction l using evictMainAux.induct with
  | case1 => simp [evictMainAux_nil]
  | case2 t rest ht ih =>
    rw [evictMainAux]
    simp only [ht, dif_pos]
    refine ih ?_
    intro e he
    rcases List.mem_append.1 he with h1 | h1
    · exact h e (List.mem_cons_of_mem _ h1)
    · have : e = ⟨t.key, t.value, t.freq - 1⟩ := by simpa using h1
      subst this
      have := h t (List.mem_cons_self _ _)
      simp only
      omega
  | case3 t rest ht =>
    rw [evictMainAux]
    simp only [ht, dif_neg]
    intro e he
    exact h e (List.mem_cons_of_mem _ he)

theorem evictMainAux_keys_subperm (l : List (Entry K V)) :
    List.Subperm ((evictMainAux l).map (fun e => e.key)) (l.map (fun e => e.key)) := by
  induction l using evictMainAux.induct with
  | case1 => simp [evictMainAux_nil]
  | case2 t rest ht ih =>
    rw [evictMainAux]
    simp only [ht, dif_pos]
    refine ih.trans ?_
    have hp : List.Perm ((rest ++ [(⟨t.key, t.value, t.freq - 1⟩ : Entry K V)]).map
        (fun e => e.key)) ((t :: rest).map (fun e => e.key)) := by
      simpa using List.perm_append_singleton t.key (rest.map (fun e => e.key))
    exact hp.subperm
  | case3 t rest ht =>
    rw [evictMainAux]
    simp only [ht, dif_neg]
    exact ((List.sublist_cons_self t rest).map (fun e => e.key)).subperm

theorem evictMainL_nil : evictMainL ([] : List (Entry K V)) = [] := by
  simp [evictMainL, evictMainAux_nil]

theorem evictMainL_length (l : List (Entry K V)) (h : l ≠ []) :
    (evictMainL l).length + 1 = l.length := by
  have := evictMainAux_length l.reverse (by simpa using h)
  simpa [evictMainL] using this

theorem evictMainL_freq_le (l : List (Entry K V)) (h : ∀ e ∈ l, e.freq ≤ 3) :
    ∀ e ∈ evictMainL l, e.freq ≤ 3 := by
  intro e he
  refine evictMainAux_freq_le l.reverse ?_ e (by simpa [evictMainL] using he)
  intro e' he'
  exact h e' (by simpa using he')

theorem evictMainL_keys_subperm (l : List (Entry K V)) :
    List.Subperm ((evictMainL l).map (fun e => e.key)) (l.map (fun e => e.key)) := by
  have h1 : List.Perm ((evictMainL l).map (fun e => e.key))
      ((evictMainAux l.reverse).map (fun e => e.key)) := by
    simpa [evictMainL, List.map_reverse] using
      (List.reverse_perm ((evictMainAux l.reverse).map (fun e => e.key)))
  have h2 := evictMainAux_keys_subperm l.reverse
  have h3 : List.Perm (l.reverse.map (fun e => e.key)) (l.map (fun e => e.key)) := by
    simpa [List.map_reverse] using (List.reverse_perm (l.map (fun e => e.key)))
  exact h1.subperm.trans (h2.trans h3.subperm)

theorem evictMainL_last_zero (l : List (Entry K V)) (t : Entry K V)
    (h : l.getLast? = some t) (hf : t.freq = 0) : evictMainL l = l.dropLast := by
  have hl : l.dropLast ++ [t] = l := by
    simpa using List.dropLast_append_getLast? _ h
  have hrev : l.reverse = t :: l.dropLast.reverse := by
    rw [← hl]; simp
  rw [evictMainL, hrev, evictMainAux]
  simp [hf]

theorem evictMainL_rot (l : List (Entry K V)) (t : Entry K V)
    (h : l.getLast? = some t) (hf : 0 < t.freq) :
    evictMainL l = evictMainL (⟨t.key, t.value, t.freq - 1⟩ :: l.dropLast) := by
  have hl : l.dropLast ++ [t] = l := by
    simpa using List.dropLast_append_getLast? _ h
  have hrev : l.reverse = t :: l.dropLast.reverse := by
    rw [← hl]; simp
  rw [evictMainL, hrev, evictMainAux]
  simp only [hf, dif_pos]
  rw [evictMainL]
  congr 1
  congr 1
  simp

theorem evict_small_nil (s : S3Fifo K V) (h : s.small = []) : s.evict_small = s := by
  simp [S3Fifo.evict_small, h]

theorem evict_small_promote (s : S3Fifo K V) (t : Entry K V)
    (h : s.small.getLast? = some t) (hf : 1 < t.freq) :
    s.evict_small =
      { s with small := s.small.dropLast,
               main := t :: (if s.main_size ≤ s.main.length then evictMainL s.main
                             else s.main) } := by
  rw [S3Fifo.evict_small, h]
  by_cases hc : s.main_size ≤ s.main.length <;>
    simp [hf, hc, S3Fifo.evict_main]

theorem evict_small_demote (s : S3Fifo K V) (t : Entry K V)
    (h : s.small.getLast? = some t) (hf : ¬ 1 < t.freq) :
    s.evict_small =
      { s with small := s.small.dropLast,
               ghost := t.key :: (if s.main_size ≤ s.ghost.length then s.ghost.dropLast
                                  else s.ghost) } := by
  rw [S3Fifo.evict_small, h]
  by_cases hc : s.main_size ≤ s.ghost.length <;>
    simp [hf, hc]

theorem insert_ghost_hit (s : S3Fifo K V) (k : K) (v : V) (h : k ∈ s.ghost) :
    s.insert k v =
      { s with main := ⟨k, v, 0⟩ :: (if s.main_size ≤ s.main.length then evictMainL s.main
                                     else s.main) } := by
  rw [S3Fifo.insert, if_pos h]
  by_cases hc : s.main_size ≤ s.main.length <;>
    simp [hc, S3Fifo.evict_main]

theorem insert_fresh_full (s : S3Fifo K V) (k : K) (v : V) (h : k ∉ s.ghost)
    (hfull : s.small_size ≤ s.small.length) :
    s.insert k v = { s.evict_small with small := ⟨k, v, 0⟩ :: s.evict_small.small } := by
  rw [S3Fifo.insert, if_neg h]
  simp [hfull]

theorem insert_fresh_room (s : S3Fifo K V) (k : K) (v : V) (h : k ∉ s.ghost)
    (hroom : ¬ s.small_size ≤ s.small.length) :
    s.insert k v = { s with small := ⟨k, v, 0⟩ :: s.small } := by
  rw [S3Fifo.insert, if_neg h]
  simp [hroom]

theorem evict_small_sizes (s : S3Fifo K V) :
    s.evict_small.small_size = s.small_size ∧ s.evict_small.main_size = s.main_size := by
  cases h : s.small.getLast? with
  | none =>
    rw [S3Fifo.evict_small, h]
    exact ⟨rfl, rfl⟩
  | some t =>
    by_cases hf : 1 < t.freq
    · rw [evict_small_promote s t h hf]
      exact ⟨rfl, rfl⟩
    · rw [evict_small_demote s t h hf]
      exact ⟨rfl, rfl⟩

theorem evict_small_ghost_sub (s : S3Fifo K V) (k : K) (h : k ∈ s.evict_small.ghost) :
    k ∈ s.ghost ∨ (∃ t, s.small.getLast? = some t ∧ k = t.key) := by
  cases hl : s.small.getLast? with
  | none =>
    rw [S3Fifo.evict_small, hl] at h
    exact Or.inl h
  | some t =>
    by_cases hf : 1 < t.freq
    · rw [evict_small_promote s t hl hf] at h
      exact Or.inl h
    · rw [evict_small_demote s t hl hf] at h
      simp only [List.mem_cons] at h
      rcases h with h | h
      · exact Or.inr ⟨t, rfl, h⟩
      · left
        split at h
        · exact (List.dropLast_sublist s.ghost).mem h
        · exact h

theorem readBump_le (f : Nat) : readBump f ≤ 3 := by
  rw [readBump]
  split <;> omega

theorem readBump_min (f : Nat) (h : f ≤ 3) : readBump f = min (f + 1) 3 := by
  rw [readBump]
  have : (f + 1) % 256 = f + 1 := Nat.mod_eq_of_lt (by omega)
  rw [this]
  split <;> omega

theorem bumpFirst_eq_none (k : K) :
    ∀ l : List (Entry K V), (∀ e ∈ l, e.key ≠ k) → bumpFirst l k = none := by
  intro l
  induction l with
  | nil => intro _; rfl
  | cons e rest ih =>
    intro h
    rw [bumpFirst]
    rw [if_neg (h e (List.mem_cons_self _ _)), ih (fun e' he' => h e' (List.mem_cons_of_mem _ he'))]

theorem bumpFirst_first (k : K) :
    ∀ (pre : List (Entry K V)) (e : Entry K V) (post : List (Entry K V)),
      (∀ e' ∈ pre, e'.key ≠ k) → e.key = k →
      bumpFirst (pre ++ e :: post) k =
        some (pre ++ ⟨e.key, e.value, readBump e.freq⟩ :: post, e.value) := by
  intro pre
  induction pre with
  | nil =>
    intro e post _ he
    simp only [List.nil_append]
    rw [bumpFirst, if_pos he]
  | cons p pre' ih =>
    intro e post hpre he
    simp only [List.cons_append]
    rw [bumpFirst, if_neg (hpre p (List.mem_cons_self _ _)),
      ih e post (fun e' he' => hpre e' (List.mem_cons_of_mem _ he')) he]

theorem bumpFirst_kv (k : K) :
    ∀ (l l' : List (Entry K V)) (v : V), bumpFirst l k = some (l', v) →
      l'.map (fun e => (e.key, e.value)) = l.map (fun e => (e.key, e.value)) := by
  intro l
  induction l with
  | nil => intro l' v h; exact absurd h (by rw [bumpFirst]; simp)
  | cons e rest ih =>
    intro l' v h
    rw [bumpFirst] at h
    by_cases he : e.key = k
    · rw [if_pos he] at h
      obtain ⟨h1, _⟩ := Prod.mk.injEq .. ▸ (Option.some.injEq .. ▸ h)
      subst h1
      simp
    · rw [if_neg he] at h
      cases hr : bumpFirst rest k with
      | none => rw [hr] at h; exact absurd h (by simp)
      | some p =>
        obtain ⟨rest', v'⟩ := p
        rw [hr] at h
        obtain ⟨h1, h2⟩ := Prod.mk.injEq .. ▸ (Option.some.injEq .. ▸ h)
        subst h1
        simp only [List.map_cons]
        rw [ih rest' v' (by rw [hr, h2])]

theorem bumpFirst_freq_le (k : K) :
    ∀ (l l' : List (Entry K V)) (v : V), bumpFirst l k = some (l', v) →
      (∀ e ∈ l, e.freq ≤ 3) → ∀ e ∈ l', e.freq ≤ 3 := by
  intro l
  induction l with
  | nil => intro l' v h; exact absurd h (by rw [bumpFirst]; simp)
  | cons e rest ih =>
    intro l' v h hle
    rw [bumpFirst] at h
    by_cases he : e.key = k
    · rw [if_pos he] at h
      obtain ⟨h1, _⟩ := Prod.mk.injEq .. ▸ (Option.some.injEq .. ▸ h)
      subst h1
      intro e' he'
      rcases List.mem_cons.1 he' with h' | h'
      · subst h'; exact readBump_le _
      · exact hle e' (List.mem_cons_of_mem _ h')
    · rw [if_neg he] at h
      cases hr : bumpFirst rest k with
      | none => rw [hr] at h; exact absurd h (by simp)
      | some p =>
        obtain ⟨rest', v'⟩ := p
        rw [hr] at h
        obtain ⟨h1, h2⟩ := Prod.mk.injEq .. ▸ (Option.some.injEq .. ▸ h)
        subst h1
        intro e' he'
        rcases List.mem_cons.1 he' with h' | h'
        · subst h'; exact hle e' (List.mem_cons_self _ _)
        · exact ih rest' v' (by rw [hr, h2])
            (fun e'' he'' => hle e'' (List.mem_cons_of_mem _ he'')) e' h'

theorem bumpFirst_append (k : K) (a b : List (Entry K V)) :
    bumpFirst (a ++ b) k =
      match bumpFirst a k with
      | some (a', v) => some (a' ++ b, v)
      | none =>
        match bumpFirst b k with
        | some (b', v) => some (a ++ b', v)
        | none => none := by
  induction a with
  | nil =>
    simp only [List.nil_append]
    cases hb : bumpFirst b k with
    | none => simp [bumpFirst]
    | some p => obtain ⟨b', v⟩ := p; simp [bumpFirst]
  | cons e rest ih =>
    simp only [List.cons_append]
    rw [bumpFirst]
    by_cases he : e.key = k
    · rw [if_pos he]
      conv_rhs => rw [bumpFirst, if_pos he]
      simp
    · rw [if_neg he, ih]
      conv_rhs => rw [bumpFirst, if_neg he]
      cases hr : bumpFirst rest k with
      | none =>
        cases hb : bumpFirst b k with
        | none => simp
        | some p => obtain ⟨b', v⟩ := p; simp
      | some p => obtain ⟨rest', v⟩ := p; simp

theorem read_miss (s : S3Fifo K V) (k : K) (h1 : bumpFirst s.small k = none)
    (h2 : bumpFirst s.main k = none) : s.read k = (none, s) := by
  rw [S3Fifo.read, h1, h2]

theorem read_hit_small (s : S3Fifo K V) (k : K) (l' : List (Entry K V)) (v : V)
    (h1 : bumpFirst s.small k = some (l', v)) :
    s.read k = (some v, { s with small := l' }) := by
  rw [S3Fifo.read, h1]

theorem read_hit_main (s : S3Fifo K V) (k : K) (l' : List (Entry K V)) (v : V)
    (h1 : bumpFirst s.small k = none) (h2 : bumpFirst s.main k = some (l', v)) :
    s.read k = (some v, { s with main := l' }) := by
  rw [S3Fifo.read, h1, h2]

theorem read_kv (s : S3Fifo K V) (k : K) :
    (s.read k).2.small.map (fun e => (e.key, e.value)) =
        s.small.map (fun e => (e.key, e.value))
    ∧ (s.read k).2.main.map (fun e => (e.key, e.value)) =
        s.main.map (fun e => (e.key, e.value))
    ∧ (s.read k).2.ghost = s.ghost
    ∧ (s.read k).2.small_size = s.small_size
    ∧ (s.read k).2.main_size = s.main_size := by
  cases h1 : bumpFirst s.small k with
  | some p =>
    obtain ⟨l', v⟩ := p
    rw [read_hit_small s k l' v h1]
    exact ⟨bumpFirst_kv k _ _ _ h1, rfl, rfl, rfl, rfl⟩
  | none =>
    cases h2 : bumpFirst s.main k with
    | some p =>
      obtain ⟨l', v⟩ := p
      rw [read_hit_main s k l' v h1 h2]
      exact ⟨rfl, bumpFirst_kv k _ _ _ h2, rfl, rfl, rfl⟩
    | none =>
      rw [read_miss s k h1 h2]
      exact ⟨rfl, rfl, rfl, rfl, rfl⟩

theorem evictMainAuxFuel_eq (fuel : Nat) :
    ∀ l : List (Entry K V), freqSum l < fuel →
      evictMainAuxFuel fuel l = some (evictMainAux l) := by
  induction fuel with
  | zero => intro l hl; omega
  | succ n ih =>
    intro l hl
    match l with
    | [] => rw [evictMainAuxFuel, evictMainAux_nil]
    | t :: rest =>
      rw [evictMainAuxFuel, evictMainAux]
      by_cases ht : 0 < t.freq
      · simp only [ht, if_pos, dif_pos]
        refine ih _ ?_
        simp only [freqSum_append, freqSum_cons, freqSum_nil] at hl ⊢
        omega
      · simp [ht]

theorem step_sizes (s : S3Fifo K V) (op : Op K V) :
    (s.step op).small_size = s.small_size ∧ (s.step op).main_size = s.main_size := by
  cases op with
  | read k =>
    have h := read_kv s k
    exact ⟨h.2.2.2.1, h.2.2.2.2⟩
  | insert k v =>
    show (s.insert k v).small_size = _ ∧ (s.insert k v).main_size = _
    by_cases hg : k ∈ s.ghost
    · rw [insert_ghost_hit s k v hg]
      exact ⟨rfl, rfl⟩
    · by_cases hfull : s.small_size ≤ s.small.length
      · rw [insert_fresh_full s k v hg hfull]
        exact evict_small_sizes s
      · rw [insert_fresh_room s k v hg hfull]
        exact ⟨rfl, rfl⟩

theorem small_ne_nil_of_full (s : S3Fifo K V) (h1 : 1 ≤ s.small_size)
    (hfull : s.small_size ≤ s.small.length) : s.small ≠ [] :=
  List.ne_nil_of_length_pos (by omega)

theorem evict_small_sizeInv (s : S3Fifo K V) (h2 : 1 ≤ s.main_size) (hInv : SizeInv s) :
    s.evict_small.small.length + 1 ≤ s.small.length + 1
    ∧ s.evict_small.main.length ≤ s.main_size
    ∧ s.evict_small.ghost.length ≤ s.main_size := by
  obtain ⟨hs, hm, hgh⟩ := hInv
  cases hl : s.small.getLast? with
  | none =>
    rw [evict_small_nil s (List.getLast?_eq_none_iff.1 hl)]
    exact ⟨by omega, hm, hgh⟩
  | some t =>
    by_cases hf : 1 < t.freq
    · rw [evict_small_promote s t hl hf]
      refine ⟨by simp only [List.length_dropLast]; omega, ?_, hgh⟩
      by_cases hc : s.main_size ≤ s.main.length
      · have heq : s.main.length = s.main_size := le_antisymm hm hc
        have hne : s.main ≠ [] := List.ne_nil_of_length_pos (by omega)
        have := evictMainL_length s.main hne
        simp only [hc, if_pos, List.length_cons]
        omega
      · simp only [hc, if_neg, List.length_cons, if_false]
        omega
    · rw [evict_small_demote s t hl hf]
      refine ⟨by simp only [List.length_dropLast]; omega, hm, ?_⟩
      by_cases hc : s.main_size ≤ s.ghost.length
      · have heq : s.ghost.length = s.main_size := le_antisymm hgh hc
        simp only [hc, if_pos, List.length_cons, List.length_dropLast]
        omega
      · simp only [hc, if_neg, List.length_cons, if_false]
        omega

theorem evict_small_small_len (s : S3Fifo K V) (t : Entry K V)
    (h : s.small.getLast? = some t) :
    s.evict_small.small.length + 1 = s.small.length := by
  have hne : s.small ≠ [] := by
    intro hnil
    rw [hnil] at h
    simp at h
  have hpos : 0 < s.small.length := List.length_pos.2 hne
  by_cases hf : 1 < t.freq
  · rw [evict_small_promote s t h hf]
    simp [List.length_dropLast]
    omega
  · rw [evict_small_demote s t h hf]
    simp [List.length_dropLast]
    omega

theorem sizeInv_step (s : S3Fifo K V) (op : Op K V) (h1 : 1 ≤ s.small_size)
    (h2 : 1 ≤ s.main_size) (hInv : SizeInv s) : SizeInv (s.step op) := by
  obtain ⟨hs, hm, hgh⟩ := hInv
  cases op with
  | read k =>
    show SizeInv (s.read k).2
    have h := read_kv s k
    have hsl : (s.read k).2.small.length = s.small.length := by
      have := congrArg List.length h.1
      simpa using this
    have hml : (s.read k).2.main.length = s.main.length := by
      have := congrArg List.length h.2.1
      simpa using this
    exact ⟨by rw [hsl, h.2.2.2.1]; exact hs,
      by rw [hml, h.2.2.2.2]; exact hm,
      by rw [h.2.2.1, h.2.2.2.2]; exact hgh⟩
  | insert k v =>
    show SizeInv (s.insert k v)
    by_cases hg : k ∈ s.ghost
    · rw [insert_ghost_hit s k v hg]
      refine ⟨hs, ?_, hgh⟩
      by_cases hc : s.main_size ≤ s.main.length
      · have heq : s.main.length = s.main_size := le_antisymm hm hc
        have hne : s.main ≠ [] := List.ne_nil_of_length_pos (by omega)
        have := evictMainL_length s.main hne
        simp only [hc, if_pos, List.length_cons]
        omega
      · simp only [hc, if_neg, List.length_cons, if_false]
        omega
    · by_cases hfull : s.small_size ≤ s.small.length
      · rw [insert_fresh_full s k v hg hfull]
        have heq : s.small.length = s.small_size := le_antisymm hs hfull
        have hne : s.small ≠ [] := List.ne_nil_of_length_pos (by omega)
        obtain ⟨t, hl⟩ : ∃ t, s.small.getLast? = some t := by
          cases hgl : s.small.getLast? with
          | none => exact absurd (List.getLast?_eq_none_iff.1 hgl) hne
          | some t => exact ⟨t, rfl⟩
        have hlen := evict_small_small_len s t hl
        have hrest := evict_small_sizeInv s h2 ⟨hs, hm, hgh⟩
        have hsz := evict_small_sizes s
        refine ⟨?_, ?_, ?_⟩
        · show ((⟨k, v, 0⟩ : Entry K V) :: s.evict_small.small).length ≤
            s.evict_small.small_size
          rw [hsz.1]
          simp only [List.length_cons]
          omega
        · show s.evict_small.main.length ≤ s.evict_small.main_size
          rw [hsz.2]
          exact hrest.2.1
        · show s.evict_small.ghost.length ≤ s.evict_small.main_size
          rw [hsz.2]
          exact hrest.2.2
      · rw [insert_fresh_room s k v hg hfull]
        exact ⟨by simp only [List.length_cons]; omega, hm, hgh⟩

theorem run_sizes (ops : List (Op K V)) :
    ∀ s : S3Fifo K V, (S3Fifo.run s ops).small_size = s.small_size
      ∧ (S3Fifo.run s ops).main_size = s.main_size := by
  induction ops with
  | nil => intro s; exact ⟨rfl, rfl⟩
  | cons op rest ih =>
    intro s
    have h1 := step_sizes s op
    have h2 := ih (s.step op)
    exact ⟨by rw [show S3Fifo.run s (op :: rest) = S3Fifo.run (s.step op) rest from rfl,
        h2.1, h1.1],
      by rw [show S3Fifo.run s (op :: rest) = S3Fifo.run (s.step op) rest from rfl,
        h2.2, h1.2]⟩

theorem sizeInv_run (ops : List (Op K V)) :
    ∀ s : S3Fifo K V, 1 ≤ s.small_size → 1 ≤ s.main_size → SizeInv s →
      SizeInv (S3Fifo.run s ops) := by
  induction ops with
  | nil => intro s _ _ h; exact h
  | cons op rest ih =>
    intro s h1 h2 hInv
    have hsz := step_sizes s op
    exact ih (s.step op) (by rw [hsz.1]; exact h1) (by rw [hsz.2]; exact h2)
      (sizeInv_step s op h1 h2 hInv)

theorem mem_of_getLast_opt {l : List (Entry K V)} {t : Entry K V}
    (h : l.getLast? = some t) : t ∈ l := by
  have := List.dropLast_append_getLast? _ h
  rw [← this]
  simp

theorem evict_small_freqInv (s : S3Fifo K V) (h : FreqInv s) : FreqInv s.evict_small := by
  cases hl : s.small.getLast? with
  | none =>
    rw [evict_small_nil s (List.getLast?_eq_none_iff.1 hl)]
    exact h
  | some t =>
    have hts : t ∈ s.small := mem_of_getLast_opt hl
    have ht3 : t.freq ≤ 3 := h t (List.mem_append.2 (Or.inl hts))
    by_cases hf : 1 < t.freq
    · rw [evict_small_promote s t hl hf]
      intro e he
      rcases List.mem_append.1 he with h1 | h1
      · exact h e (List.mem_append.2 (Or.inl ((List.dropLast_sublist s.small).mem h1)))
      · rcases List.mem_cons.1 h1 with h2 | h2
        · subst h2; exact ht3
        · split at h2
          · exact evictMainL_freq_le s.main
              (fun e' he' => h e' (List.mem_append.2 (Or.inr he'))) e h2
          · exact h e (List.mem_append.2 (Or.inr h2))
    · rw [evict_small_demote s t hl hf]
      intro e he
      rcases List.mem_append.1 he with h1 | h1
      · exact h e (List.mem_append.2 (Or.inl ((List.dropLast_sublist s.small).mem h1)))
      · exact h e (List.mem_append.2 (Or.inr h1))

theorem insert_freqInv (s : S3Fifo K V) (k : K) (v : V) (h : FreqInv s) :
    FreqInv (s.insert k v) := by
  by_cases hg : k ∈ s.ghost
  · rw [insert_ghost_hit s k v hg]
    intro e he
    rcases List.mem_append.1 he with h1 | h1
    · exact h e (List.mem_append.2 (Or.inl h1))
    · rcases List.mem_cons.1 h1 with h2 | h2
      · subst h2; simp
      · split at h2
        · exact evictMainL_freq_le s.main
            (fun e' he' => h e' (List.mem_append.2 (Or.inr he'))) e h2
        · exact h e (List.mem_append.2 (Or.inr h2))
  · have haux : FreqInv (if s.small_size ≤ s.small.length then s.evict_small else s) := by
      split
      · exact evict_small_freqInv s h
      · exact h
    by_cases hfull : s.small_size ≤ s.small.length
    · rw [insert_fresh_full s k v hg hfull]
      simp only [hfull, if_pos] at haux
      intro e he
      rcases List.mem_append.1 he with h1 | h1
      · rcases List.mem_cons.1 h1 with h2 | h2
        · subst h2; simp
        · exact haux e (List.mem_append.2 (Or.inl h2))
      · exact haux e (List.mem_append.2 (Or.inr h1))
    · rw [insert_fresh_room s k v hg hfull]
      intro e he
      rcases List.mem_append.1 he with h1 | h1
      · rcases List.mem_cons.1 h1 with h2 | h2
        · subst h2; simp
        · exact h e (List.mem_append.2 (Or.inl h2))
      · exact h e (List.mem_append.2 (Or.inr h1))

theorem read_freqInv (s : S3Fifo K V) (k : K) (h : FreqInv s) : FreqInv (s.read k).2 := by
  cases h1 : bumpFirst s.small k with
  | some p =>
    obtain ⟨l', v⟩ := p
    rw [read_hit_small s k l' v h1]
    intro e he
    rcases List.mem_append.1 he with h2 | h2
    · exact bumpFirst_freq_le k s.small l' v h1
        (fun e' he' => h e' (List.mem_append.2 (Or.inl he'))) e h2
    · exact h e (List.mem_append.2 (Or.inr h2))
  | none =>
    cases h2 : bumpFirst s.main k with
    | some p =>
      obtain ⟨l', v⟩ := p
      rw [read_hit_main s k l' v h1 h2]
      intro e he
      rcases List.mem_append.1 he with h3 | h3
      · exact h e (List.mem_append.2 (Or.inl h3))
      · exact bumpFirst_freq_le k s.main l' v h2
          (fun e' he' => h e' (List.mem_append.2 (Or.inr he'))) e h3
    | none =>
      rw [read_miss s k h1 h2]
      exact h

theorem freqInv_run (ops : List (Op K V)) :
    ∀ s : S3Fifo K V, FreqInv s → FreqInv (S3Fifo.run s ops) := by
  induction ops with
  | nil => intro s h; exact h
  | cons op rest ih =>
    intro s h
    refine ih (s.step op) ?_
    cases op with
    | insert k v => exact insert_freqInv s k v h
    | read k => exact read_freqInv s k h

theorem subperm_append_left_of (l : List K) {l₁ l₂ : List K}
    (h : List.Subperm l₁ l₂) : List.Subperm (l ++ l₁) (l ++ l₂) := by
  obtain ⟨u, hu, hs⟩ := h
  exact ⟨l ++ u, List.Perm.append_left l hu, hs.append_left l⟩

theorem nodup_of_subperm {l₁ l₂ : List K} (h : List.Subperm l₁ l₂)
    (h2 : l₂.Nodup) : l₁.Nodup := by
  obtain ⟨u, hu, hs⟩ := h
  exact hu.nodup_iff.1 (h2.sublist hs)

theorem liveKeys_small_split (s : S3Fifo K V) (t : Entry K V)
    (h : s.small.getLast? = some t) :
    liveKeys s = s.small.dropLast.map (fun e => e.key) ++
      (t.key :: s.main.map (fun e => e.key)) := by
  have hl : s.small.dropLast ++ [t] = s.small := by
    simpa using List.dropLast_append_getLast? _ h
  rw [liveKeys, ← hl]
  simp

theorem liveKeys_evict_small_subperm (s : S3Fifo K V) :
    List.Subperm (liveKeys s.evict_small) (liveKeys s) := by
  cases hl : s.small.getLast? with
  | none =>
    rw [evict_small_nil s (List.getLast?_eq_none_iff.1 hl)]
  | some t =>
    rw [liveKeys_small_split s t hl]
    by_cases hf : 1 < t.freq
    · rw [evict_small_promote s t hl hf]
      show List.Subperm ((s.small.dropLast ++ (t :: _)).map (fun e => e.key)) _
      rw [List.map_append]
      refine subperm_append_left_of _ ?_
      rw [List.map_cons]
      refine (List.subperm_cons t.key).2 ?_
      split
      · exact evictMainL_keys_subperm s.main
      · exact List.Subperm.refl _
    · rw [evict_small_demote s t hl hf]
      show List.Subperm ((s.small.dropLast ++ s.main).map (fun e => e.key)) _
      rw [List.map_append]
      refine subperm_append_left_of _ ?_
      exact (List.Subperm.cons_right _ (List.Subperm.refl _))

theorem liveKeys_insert_subperm (s : S3Fifo K V) (k : K) (v : V) :
    List.Subperm (liveKeys (s.insert k v)) (k :: liveKeys s) := by
  by_cases hg : k ∈ s.ghost
  · rw [insert_ghost_hit s k v hg]
    show List.Subperm ((s.small ++ ((⟨k, v, 0⟩ : Entry K V) ::
      (if s.main_size ≤ s.main.length then evictMainL s.main else s.main))).map
        (fun e => e.key)) (k :: liveKeys s)
    rw [List.map_append, List.map_cons]
    have hperm : List.Perm
        (s.small.map (fun e => e.key) ++ (k :: (if s.main_size ≤ s.main.length then
          evictMainL s.main else s.main).map (fun e => e.key)))
        (k :: (s.small.map (fun e => e.key) ++ (if s.main_size ≤ s.main.length then
          evictMainL s.main else s.main).map (fun e => e.key))) := List.perm_middle
    refine hperm.subperm.trans ?_
    refine (List.subperm_cons k).2 ?_
    rw [liveKeys, List.map_append]
    refine subperm_append_left_of _ ?_
    split
    · exact evictMainL_keys_subperm s.main
    · exact List.Subperm.refl _
  · by_cases hfull : s.small_size ≤ s.small.length
    · rw [insert_fresh_full s k v hg hfull]
      show List.Subperm ((((⟨k, v, 0⟩ : Entry K V) :: s.evict_small.small) ++
        s.evict_small.main).map (fun e => e.key)) (k :: liveKeys s)
      rw [List.cons_append, List.map_cons]
      refine (List.subperm_cons k).2 ?_
      exact liveKeys_evict_small_subperm s
    · rw [insert_fresh_room s k v hg hfull]
      show List.Subperm ((((⟨k, v, 0⟩ : Entry K V) :: s.small) ++ s.main).map
        (fun e => e.key)) (k :: liveKeys s)
      rw [List.cons_append, List.map_cons]
      exact (List.subperm_cons k).2 (List.Subperm.refl _)

theorem liveKeys_read (s : S3Fifo K V) (k : K) : liveKeys (s.read k).2 = liveKeys s := by
  have h := read_kv s k
  have h1 : (s.read k).2.small.map (fun e => e.key) = s.small.map (fun e => e.key) := by
    have := congrArg (fun l => l.map Prod.fst) h.1
    simpa [List.map_map, Function.comp] using this
  have h2 : (s.read k).2.main.map (fun e => e.key) = s.main.map (fun e => e.key) := by
    have := congrArg (fun l => l.map Prod.fst) h.2.1
    simpa [List.map_map, Function.comp] using this
  rw [liveKeys, liveKeys, List.map_append, List.map_append, h1, h2]

theorem keysNodup_insert (s : S3Fifo K V) (k : K) (v : V) (h : KeysNodup s)
    (hk : ∀ e ∈ s.small ++ s.main, e.key ≠ k) : KeysNodup (s.insert k v) := by
  have hnotin : k ∉ liveKeys s := by
    intro hmem
    obtain ⟨e, he, hek⟩ := List.mem_map.1 hmem
    exact hk e he hek
  have hnd : (k :: liveKeys s).Nodup := List.nodup_cons.2 ⟨hnotin, h⟩
  exact nodup_of_subperm (liveKeys_insert_subperm s k v) hnd

theorem keysNodup_run (ops : List (Op K V)) :
    ∀ s : S3Fifo K V, KeysNodup s → freshRun s ops = true →
      KeysNodup (S3Fifo.run s ops) := by
  induction ops with
  | nil => intro s h _; exact h
  | cons op rest ih =>
    intro s h hf
    cases op with
    | insert k v =>
      rw [freshRun] at hf
      simp only [Bool.and_eq_true] at hf
      obtain ⟨hk, hrest⟩ := hf
      exact ih (s.insert k v) (keysNodup_insert s k v h (of_decide_eq_true hk)) hrest
    | read k =>
      rw [freshRun] at hf
      refine ih ((s.read k).2) ?_ hf
      rw [KeysNodup, liveKeys_read]
      exact h

/-! ## Claims -/

/-- Claim C1, amended: for every sequence of insert and read operations and
all positive capacities (`1 ≤ small_capacity`, `1 ≤ main_capacity`), after
every operation `|small| ≤ small_capacity`, `|main| ≤ main_capacity` and
`|ghost| ≤ main_capacity` (every reachable state is `run` of some prefix,
so quantifying over all `ops` covers every intermediate state).  The
original claim also allowed capacity zero, which the code violates: see
the counterexample. -/
theorem capacity_invariant (c₁ c₂ : Nat) (ops : List (Op K V)) (h1 : 1 ≤ c₁)
    (h2 : 1 ≤ c₂) :
    ((S3Fifo.new c₁ c₂ : S3Fifo K V).run ops).small.length ≤ c₁
    ∧ ((S3Fifo.new c₁ c₂ : S3Fifo K V).run ops).main.length ≤ c₂
    ∧ ((S3Fifo.new c₁ c₂ : S3Fifo K V).run ops).ghost.length ≤ c₂ := by
  have hinv := sizeInv_run ops (S3Fifo.new c₁ c₂ : S3Fifo K V) h1 h2
    ⟨by simp [S3Fifo.new], by simp [S3Fifo.new], by simp [S3Fifo.new]⟩
  have hsz := run_sizes ops (S3Fifo.new c₁ c₂ : S3Fifo K V)
  obtain ⟨ha, hb, hc⟩ := hinv
  rw [hsz.1] at ha
  rw [hsz.2] at hb hc
  exact ⟨ha, hb, hc⟩

/-- Claim C1 witness: the invariant instantiated at capacities 1 and 2. -/
theorem capacity_invariant_witness :
    1 ≤ 1 ∧ 1 ≤ 2 ∧
      (((S3Fifo.new 1 2 : S3Fifo Nat Nat).run [Op.insert 0 0, Op.insert 1 1]).small.length ≤ 1
       ∧ ((S3Fifo.new 1 2 : S3Fifo Nat Nat).run [Op.insert 0 0, Op.insert 1 1]).main.length ≤ 2
       ∧ ((S3Fifo.new 1 2 : S3Fifo Nat Nat).run [Op.insert 0 0, Op.insert 1 1]).ghost.length ≤ 2) :=
  ⟨by decide, by decide,
    capacity_invariant 1 2 [Op.insert 0 0, Op.insert 1 1] (by decide) (by decide)⟩

/-- Claim C1 counterexample: with `small_capacity = 0` a single insert
leaves the small queue at length 1, exceeding the capacity, because
`evict_small` on an empty queue removes nothing and the code pushes
unconditionally afterwards. -/
theorem capacity_zero_counterexample :
    ¬ ((S3Fifo.new 0 0 : S3Fifo Nat Nat).run [Op.insert 0 0]).small.length ≤
      ((S3Fifo.new 0 0 : S3Fifo Nat Nat).run [Op.insert 0 0]).small_size := by decide

/-- Claim C2, amended: when `insert` finds the key in ghost it admits the
new entry at the head of main but does NOT remove the key from ghost (the
source's ghost-hit branch never touches `self.ghost`); consequently a key
live in small or main can simultaneously be present in ghost.  A ghost key
disappears only by falling off the ghost queue's tail on overflow. -/
theorem ghost_not_purged (s : S3Fifo K V) (k : K) (v : V) (h : k ∈ s.ghost) :
    (s.insert k v).ghost = s.ghost ∧ k ∈ (s.insert k v).ghost
    ∧ (s.insert k v).main.head? = some ⟨k, v, 0⟩ := by
  rw [insert_ghost_hit s k v h]
  exact ⟨rfl, h, rfl⟩

/-- Claim C2 witness: inserting key 0 (present in ghost) leaves ghost
unchanged. -/
theorem ghost_not_purged_witness :
    (0 : Nat) ∈ (⟨[], [], [0], 1, 1⟩ : S3Fifo Nat Nat).ghost
    ∧ ((⟨[], [], [0], 1, 1⟩ : S3Fifo Nat Nat).insert 0 5).ghost = [0] := by
  refine ⟨by decide, ?_⟩
  have h := ghost_not_purged (⟨[], [], [0], 1, 1⟩ : S3Fifo Nat Nat) 0 5 (by decide)
  exact h.1

/-- Claim C2 counterexample: from `new 1 1`, after insert 0, insert 1
(which demotes key 0 to ghost) and insert 0 again (the ghost fast path),
key 0 is a live entry of main and still a member of ghost — refuting the
claimed small/main-vs-ghost exclusion and the claimed removal from ghost
on ghost-hit insert. -/
theorem ghost_overlap_counterexample :
    (∃ e ∈ ((S3Fifo.new 1 1 : S3Fifo Nat Nat).run
        [Op.insert 0 0, Op.insert 1 1, Op.insert 0 2]).main, e.key = 0)
    ∧ 0 ∈ ((S3Fifo.new 1 1 : S3Fifo Nat Nat).run
        [Op.insert 0 0, Op.insert 1 1, Op.insert 0 2]).ghost := by decide

/-- Claim C3: a small eviction with non-empty small removes exactly the
tail of small; when the tail's `freq > 1` it is pushed at the head of main
with its counter preserved (running main eviction first exactly when
`main_size ≤ main.length`) and ghost is untouched; otherwise its bare key
is pushed at the head of ghost (dropping ghost's tail first exactly when
ghost is full) and main is untouched — a main insertion or a ghost
insertion, never both. -/
theorem evict_small_spec (s : S3Fifo K V) (t : Entry K V)
    (h : s.small.getLast? = some t) :
    s.evict_small.small = s.small.dropLast
    ∧ (1 < t.freq →
        s.evict_small.main =
          t :: (if s.main_size ≤ s.main.length then evictMainL s.main else s.main)
        ∧ s.evict_small.ghost = s.ghost)
    ∧ (¬ 1 < t.freq →
        s.evict_small.ghost =
          t.key :: (if s.main_size ≤ s.ghost.length then s.ghost.dropLast else s.ghost)
        ∧ s.evict_small.main = s.main) := by
  by_cases hf : 1 < t.freq
  · rw [evict_small_promote s t h hf]
    exact ⟨rfl, fun _ => ⟨rfl, rfl⟩, fun hc => absurd hf hc⟩
  · rw [evict_small_demote s t h hf]
    exact ⟨rfl, fun hc => absurd hc hf, fun _ => ⟨rfl, rfl⟩⟩

/-- Claim C3 witness: evicting from a one-entry small queue with `freq = 2`
promotes the entry into main. -/
theorem evict_small_spec_witness :
    (⟨[⟨0, 5, 2⟩], [], [], 1, 1⟩ : S3Fifo Nat Nat).small.getLast? = some ⟨0, 5, 2⟩
    ∧ (⟨[⟨0, 5, 2⟩], [], [], 1, 1⟩ : S3Fifo Nat Nat).evict_small.small = [] := by
  refine ⟨rfl, ?_⟩
  have h := evict_small_spec (⟨[⟨0, 5, 2⟩], [], [], 1, 1⟩ : S3Fifo Nat Nat) ⟨0, 5, 2⟩ rfl
  exact h.1

/-- Claim C4: main eviction terminates for every state — the loop with an
explicit budget of `freqSum main + 1` iterations finishes (`some`) and
computes `evict_main`'s result; each rotation of a positive-frequency tail
decrements it by one, re-inserts it at the head and strictly decreases the
total frequency sum, while a zero-frequency tail is discarded (main
becomes `dropLast`), and small and ghost are never touched, so the
discarded entry never enters ghost. -/
theorem evict_main_spec (s : S3Fifo K V) :
    (s.evict_main.small = s.small ∧ s.evict_main.ghost = s.ghost)
    ∧ evictMainAuxFuel (freqSum s.main + 1) s.main.reverse = some (s.evict_main.main.reverse)
    ∧ (∀ t : Entry K V, s.main.getLast? = some t →
        (t.freq = 0 → s.evict_main.main = s.main.dropLast)
        ∧ (0 < t.freq →
            s.evict_main.main = evictMainL (⟨t.key, t.value, t.freq - 1⟩ :: s.main.dropLast)
            ∧ freqSum (⟨t.key, t.value, t.freq - 1⟩ :: s.main.dropLast) + 1 =
                freqSum s.main)) := by
  refine ⟨⟨rfl, rfl⟩, ?_, ?_⟩
  · have h := evictMainAuxFuel_eq (freqSum s.main + 1) s.main.reverse
      (by rw [freqSum_reverse]; omega)
    rw [h]
    show some _ = some ((evictMainL s.main).reverse)
    rw [evictMainL, List.reverse_reverse]
  · intro t ht
    have hl : s.main.dropLast ++ [t] = s.main := by
      simpa using List.dropLast_append_getLast? _ ht
    constructor
    · intro h0
      exact evictMainL_last_zero s.main t ht h0
    · intro hpos
      refine ⟨evictMainL_rot s.main t ht hpos, ?_⟩
      have h2 : freqSum s.main = freqSum s.main.dropLast + t.freq := by
        conv_lhs => rw [← hl]
        rw [freqSum_append, freqSum_cons, freqSum_nil]
        omega
      rw [freqSum_cons, h2]
      show t.freq - 1 + freqSum s.main.dropLast + 1 = freqSum s.main.dropLast + t.freq
      omega

/-- Claim C4 witness: a main queue holding one zero-frequency entry evicts
it, leaving main empty. -/
theorem evict_main_spec_witness :
    (⟨[], [⟨0, 0, 0⟩], [], 1, 1⟩ : S3Fifo Nat Nat).main.getLast? = some ⟨0, 0, 0⟩
    ∧ (⟨[], [⟨0, 0, 0⟩], [], 1, 1⟩ : S3Fifo Nat Nat).evict_main.main = [] := by
  refine ⟨rfl, ?_⟩
  have h := (evict_main_spec (⟨[], [⟨0, 0, 0⟩], [], 1, 1⟩ : S3Fifo Nat Nat)).2.2
    ⟨0, 0, 0⟩ rfl
  exact h.1 rfl

/-- Claim C5: inserting a key present in ghost places the new entry
(frequency 0) directly at the head of main — never into small, which is
unchanged — running main eviction first exactly when
`main_size ≤ main.length`. -/
theorem insert_ghost_fast_path (s : S3Fifo K V) (k : K) (v : V) (h : k ∈ s.ghost) :
    (s.insert k v).main =
      ⟨k, v, 0⟩ :: (if s.main_size ≤ s.main.length then evictMainL s.main else s.main)
    ∧ (s.insert k v).small = s.small := by
  rw [insert_ghost_hit s k v h]
  exact ⟨rfl, rfl⟩

/-- Claim C5 witness: key 7 is in ghost, so insert 7 goes straight to
main and small stays empty. -/
theorem insert_ghost_fast_path_witness :
    (7 : Nat) ∈ (⟨[], [], [7], 1, 1⟩ : S3Fifo Nat Nat).ghost
    ∧ ((⟨[], [], [7], 1, 1⟩ : S3Fifo Nat Nat).insert 7 9).main = [⟨7, 9, 0⟩]
    ∧ ((⟨[], [], [7], 1, 1⟩ : S3Fifo Nat Nat).insert 7 9).small = [] := by
  have h := insert_ghost_fast_path (⟨[], [], [7], 1, 1⟩ : S3Fifo Nat Nat) 7 9 (by decide)
  refine ⟨by decide, ?_, h.2⟩
  simpa using h.1

/-- Claim C6: `read` never alters queue membership, sizes or order (the
key/value sequences of small and main, the ghost queue and the capacities
are all unchanged); a miss returns `(none, s)` with no side effect at all;
a hit on the first matching entry (scanning small then main) returns its
value and replaces only that entry's counter by `readBump`, which for any
in-range counter (`f ≤ 3`, the reachable-state invariant of claim C7) is
exactly the saturating increment `min (f + 1) 3`. -/
theorem read_spec (s : S3Fifo K V) (k : K) :
    ((s.read k).2.small.map (fun e => (e.key, e.value)) =
        s.small.map (fun e => (e.key, e.value))
      ∧ (s.read k).2.main.map (fun e => (e.key, e.value)) =
        s.main.map (fun e => (e.key, e.value))
      ∧ (s.read k).2.ghost = s.ghost
      ∧ (s.read k).2.small_size = s.small_size
      ∧ (s.read k).2.main_size = s.main_size)
    ∧ ((∀ e ∈ s.small ++ s.main, e.key ≠ k) → s.read k = (none, s))
    ∧ (∀ pre (e : Entry K V) post, s.small ++ s.main = pre ++ e :: post →
        (∀ e' ∈ pre, e'.key ≠ k) → e.key = k →
        (s.read k).1 = some e.value
        ∧ (s.read k).2.small ++ (s.read k).2.main =
            pre ++ ⟨e.key, e.value, readBump e.freq⟩ :: post)
    ∧ (∀ f ≤ 3, readBump f = min (f + 1) 3) := by
  refine ⟨read_kv s k, ?_, ?_, fun f hf => readBump_min f hf⟩
  · intro h
    exact read_miss s k
      (bumpFirst_eq_none k s.small fun e he => h e (List.mem_append.2 (Or.inl he)))
      (bumpFirst_eq_none k s.main fun e he => h e (List.mem_append.2 (Or.inr he)))
  · intro pre e post hsplit hpre he
    have hbf : bumpFirst (s.small ++ s.main) k =
        some (pre ++ ⟨e.key, e.value, readBump e.freq⟩ :: post, e.value) := by
      rw [hsplit]
      exact bumpFirst_first k pre e post hpre he
    rw [bumpFirst_append] at hbf
    cases h1 : bumpFirst s.small k with
    | some p =>
      obtain ⟨s', v⟩ := p
      rw [h1] at hbf
      simp only [Option.some.injEq, Prod.mk.injEq] at hbf
      rw [read_hit_small s k s' v h1]
      exact ⟨by rw [hbf.2], by rw [show ({ s with small := s' } : S3Fifo K V).small = s' from rfl,
        show ({ s with small := s' } : S3Fifo K V).main = s.main from rfl, hbf.1]⟩
    | none =>
      rw [h1] at hbf
      cases h2 : bumpFirst s.main k with
      | some p =>
        obtain ⟨m', v⟩ := p
        rw [h2] at hbf
        simp only [Option.some.injEq, Prod.mk.injEq] at hbf
        rw [read_hit_main s k m' v h1 h2]
        exact ⟨by rw [hbf.2], by rw [show ({ s with main := m' } : S3Fifo K V).small = s.small
          from rfl, show ({ s with main := m' } : S3Fifo K V).main = m' from rfl, hbf.1]⟩
      | none =>
        rw [h2] at hbf
        simp at hbf

/-- Claim C6 witness: a hit on the single small entry returns its value. -/
theorem read_spec_witness :
    ((⟨[⟨0, 9, 1⟩], [], [], 1, 1⟩ : S3Fifo Nat Nat).read 0).1 = some 9 := by
  have h := (read_spec (⟨[⟨0, 9, 1⟩], [], [], 1, 1⟩ : S3Fifo Nat Nat) 0).2.2.1 []
    ⟨0, 9, 1⟩ [] rfl (by simp) rfl
  exact h.1

/-- Claim C7: every reachable state (any capacities, any operation
sequence) keeps every live entry's counter within `0 ≤ freq ≤ 3`: reads
saturate at 3 and the decrements of main eviction apply only to positive
counters (the embedding stores `freq` in a `Nat`, so the lower bound is
the absence of u8 wrap, which the `% 256` model of the increment and the
guarded decrement never produce). -/
theorem freq_clamped (c₁ c₂ : Nat) (ops : List (Op K V)) :
    ∀ e ∈ ((S3Fifo.new c₁ c₂ : S3Fifo K V).run ops).small ++
        ((S3Fifo.new c₁ c₂ : S3Fifo K V).run ops).main, 0 ≤ e.freq ∧ e.freq ≤ 3 := by
  intro e he
  refine ⟨Nat.zero_le _, ?_⟩
  refine freqInv_run ops (S3Fifo.new c₁ c₂) ?_ e he
  intro e' he'
  simp [S3Fifo.new] at he'

/-- Claim C7 witness: the invariant applied to the freshly inserted entry
after one insert from `new 1 1`. -/
theorem freq_clamped_witness :
    (⟨0, 0, 0⟩ : Entry Nat Nat) ∈
      ((S3Fifo.new 1 1 : S3Fifo Nat Nat).run [Op.insert 0 0]).small ++
      ((S3Fifo.new 1 1 : S3Fifo Nat Nat).run [Op.insert 0 0]).main
    ∧ (0 ≤ (⟨0, 0, 0⟩ : Entry Nat Nat).freq ∧ (⟨0, 0, 0⟩ : Entry Nat Nat).freq ≤ 3) :=
  ⟨by decide, freq_clamped 1 1 [Op.insert 0 0] ⟨0, 0, 0⟩ (by decide)⟩

/-- Claim C8, amended: provided every insert of the sequence is of a key
with no live entry in small or main at that moment (the cache-fill
discipline — insert only on miss; the source does not deduplicate), no
key is ever live in both small and main.  Without that proviso the code
violates the claim: see the counterexample, which re-inserts a key that
is still live. -/
theorem small_main_disjoint (c₁ c₂ : Nat) (ops : List (Op K V))
    (h : freshRun (S3Fifo.new c₁ c₂ : S3Fifo K V) ops = true) :
    ∀ e ∈ ((S3Fifo.new c₁ c₂ : S3Fifo K V).run ops).small,
      ∀ e' ∈ ((S3Fifo.new c₁ c₂ : S3Fifo K V).run ops).main, e.key ≠ e'.key := by
  have hnd := keysNodup_run ops (S3Fifo.new c₁ c₂)
    (by simp [KeysNodup, liveKeys, S3Fifo.new]) h
  intro e he e' he' heq
  rw [KeysNodup, liveKeys, List.map_append] at hnd
  have hd := List.disjoint_of_nodup_append hnd
  exact hd (List.mem_map.2 ⟨e, he, rfl⟩) (List.mem_map.2 ⟨e', he', heq.symm⟩)

/-- Claim C8 witness: a fresh-insert run whose final state has key 1 in
small and key 0 in main; the theorem yields their disjointness. -/
theorem small_main_disjoint_witness :
    freshRun (S3Fifo.new 1 1 : S3Fifo Nat Nat)
      [Op.insert 0 0, Op.insert 1 1, Op.insert 0 2] = true
    ∧ (⟨1, 1, 0⟩ : Entry Nat Nat).key ≠ (⟨0, 2, 0⟩ : Entry Nat Nat).key :=
  ⟨by decide,
    small_main_disjoint 1 1 [Op.insert 0 0, Op.insert 1 1, Op.insert 0 2] (by decide)
      ⟨1, 1, 0⟩ (by decide) ⟨0, 2, 0⟩ (by decide)⟩

/-- Claim C8 counterexample: from `new 2 2`, insert 0 and 1, read 0 twice
(so key 0 is promoted on the next eviction), insert 2 (promoting the
live entry 0 into main), then insert 0 again — the re-insert goes to
small while the old entry for key 0 is still live in main, so key 0 is
simultaneously a value-bearing entry of both queues. -/
theorem small_main_overlap_counterexample :
    (∃ e ∈ ((S3Fifo.new 2 2 : S3Fifo Nat Nat).run
        [Op.insert 0 0, Op.insert 1 1, Op.read 0, Op.read 0, Op.insert 2 2,
         Op.insert 0 3]).small, e.key = 0)
    ∧ (∃ e ∈ ((S3Fifo.new 2 2 : S3Fifo Nat Nat).run
        [Op.insert 0 0, Op.insert 1 1, Op.read 0, Op.read 0, Op.insert 2 2,
         Op.insert 0 3]).main, e.key = 0) := by decide

/-- Claim C9: the spec's scenario with capacities small 2 and main 2,
encoding A, B, C, D as keys 0, 1, 2, 3 (each inserted with its key as
value).  After insert A, insert B, insert C: small is `[C, B]`
front-to-back, ghost is `[A]` and main is empty.  After additionally
reading B twice (its counter reaches 2) and inserting D: small is
`[D, C]`, main is `[B]` with B's counter still 2, ghost is `[A]`. -/
theorem scenario_run :
    ((S3Fifo.new 2 2 : S3Fifo Nat Nat).run
        [Op.insert 0 0, Op.insert 1 1, Op.insert 2 2]).small = [⟨2, 2, 0⟩, ⟨1, 1, 0⟩]
    ∧ ((S3Fifo.new 2 2 : S3Fifo Nat Nat).run
        [Op.insert 0 0, Op.insert 1 1, Op.insert 2 2]).ghost = [0]
    ∧ ((S3Fifo.new 2 2 : S3Fifo Nat Nat).run
        [Op.insert 0 0, Op.insert 1 1, Op.insert 2 2]).main = []
    ∧ ((S3Fifo.new 2 2 : S3Fifo Nat Nat).run
        [Op.insert 0 0, Op.insert 1 1, Op.insert 2 2, Op.read 1, Op.read 1,
         Op.insert 3 3]) =
      ⟨[⟨3, 3, 0⟩, ⟨2, 2, 0⟩], [⟨1, 1, 2⟩], [0], 2, 2⟩ := by decide

/-- Claim C10: with duplicate live keys, `read` returns and bumps exactly
the first match of the front-to-back scan of small, and only when small
has no match the first match of the front-to-back scan of main — i.e. the
newest matching small entry, or failing that the newest matching main
entry; all other entries are untouched (the full result state is pinned
exactly). -/
theorem read_first_match (s : S3Fifo K V) (k : K) :
    (∀ pre (e : Entry K V) post, s.small = pre ++ e :: post →
        (∀ e' ∈ pre, e'.key ≠ k) → e.key = k →
        s.read k = (some e.value,
          { s with small := pre ++ ⟨e.key, e.value, readBump e.freq⟩ :: post }))
    ∧ ((∀ e ∈ s.small, e.key ≠ k) →
        ∀ pre (e : Entry K V) post, s.main = pre ++ e :: post →
        (∀ e' ∈ pre, e'.key ≠ k) → e.key = k →
        s.read k = (some e.value,
          { s with main := pre ++ ⟨e.key, e.value, readBump e.freq⟩ :: post })) := by
  constructor
  · intro pre e post hsplit hpre he
    have h1 : bumpFirst s.small k =
        some (pre ++ ⟨e.key, e.value, readBump e.freq⟩ :: post, e.value) := by
      rw [hsplit]
      exact bumpFirst_first k pre e post hpre he
    exact read_hit_small s k _ _ h1
  · intro hnone pre e post hsplit hpre he
    have h1 : bumpFirst s.small k = none := bumpFirst_eq_none k s.small hnone
    have h2 : bumpFirst s.main k =
        some (pre ++ ⟨e.key, e.value, readBump e.freq⟩ :: post, e.value) := by
      rw [hsplit]
      exact bumpFirst_first k pre e post hpre he
    exact read_hit_main s k _ _ h1 h2

/-- Claim C10 witness: three entries share key 0 (two in small, one in
main); `read 0` returns the value of the newest small entry (10) and
bumps only its counter. -/
theorem read_first_match_witness :
    (⟨[⟨0, 10, 0⟩, ⟨0, 20, 0⟩], [⟨0, 30, 0⟩], [], 2, 2⟩ : S3Fifo Nat Nat).read 0 =
      (some 10, ⟨[⟨0, 10, 1⟩, ⟨0, 20, 0⟩], [⟨0, 30, 0⟩], [], 2, 2⟩) := by
  have h := (read_first_match
    (⟨[⟨0, 10, 0⟩, ⟨0, 20, 0⟩], [⟨0, 30, 0⟩], [], 2, 2⟩ : S3Fifo Nat Nat) 0).1
    [] ⟨0, 10, 0⟩ [⟨0, 20, 0⟩] rfl (by simp) rfl
  exact h
